import Mathlib

/-!
Shallow embedding of `src/backend/kalman_filter_track.cpp` (a 2D Kalman-filter
track-reconstruction demo) and verification of its specification claims.

Modelling conventions:
* `double` arithmetic is modelled by exact real arithmetic (`ℝ`); decimal
  literals of the source are the corresponding exact rationals
  (`0.3 = 3/10`, `0.01 = 1/100`, `-0.2 = -1/5`, `0.5 = 1/2`).
* Longitudinal positions (layer positions and the ground-truth stepping
  variable) are exact rationals in the source's arithmetic; they are carried
  as `ℚ` and cast to `ℝ` where the motion model consumes them, so that the
  loop conditions of the source stay decidable.
* The random generator (`TRandom3 rng(0)` and its `Gaus` calls) is an
  external collaborator; it is modelled as an injected stream
  `noise : ℕ → ℝ`, `noise k` being the value returned by the (k+1)-th call
  to `rng.Gaus` in program order (10 measurement smears, then the two
  initial-guess smears).
* `ROOT::Math::SMatrix` / `SVector` values are fixed-size records; the
  source's generic matrix operations are specialised to their dimensions.
  `S.Invert(S_inv)` on the 1x1 innovation writes `1/S`; its failure branch
  (singular `S`, ignored return value, `S_inv` left zero-initialised)
  coincides with Lean's junk value `(0 : ℝ)⁻¹ = 0`, so it is modelled by
  `S⁻¹`.
-/

noncomputable section

open Real

/-- State vector `[y, phi]` (`SVector<double,2>` in the source). -/
structure SVector2 where
  y : ℝ
  phi : ℝ

/-- 2x2 real matrix (`SMatrix<double,2,2>` in the source). -/
structure SMatrix2x2 where
  m00 : ℝ
  m01 : ℝ
  m10 : ℝ
  m11 : ℝ

/-- 1x2 real matrix (`SMatrix<double,1,2>`, the measurement matrix `H`). -/
structure SMatrix1x2 where
  m00 : ℝ
  m01 : ℝ

/-- 2x1 real matrix (`SMatrix<double,2,1>`, the Kalman gain `K`). -/
structure SMatrix2x1 where
  m00 : ℝ
  m10 : ℝ

def SMatrix2x2.mul (A C : SMatrix2x2) : SMatrix2x2 :=
  ⟨A.m00 * C.m00 + A.m01 * C.m10, A.m00 * C.m01 + A.m01 * C.m11,
   A.m10 * C.m00 + A.m11 * C.m10, A.m10 * C.m01 + A.m11 * C.m11⟩

def SMatrix2x2.transpose (A : SMatrix2x2) : SMatrix2x2 :=
  ⟨A.m00, A.m10, A.m01, A.m11⟩

def SMatrix2x2.add (A C : SMatrix2x2) : SMatrix2x2 :=
  ⟨A.m00 + C.m00, A.m01 + C.m01, A.m10 + C.m10, A.m11 + C.m11⟩

def SMatrix2x2.sub (A C : SMatrix2x2) : SMatrix2x2 :=
  ⟨A.m00 - C.m00, A.m01 - C.m01, A.m10 - C.m10, A.m11 - C.m11⟩

/-- `ROOT::Math::SMatrixIdentity()` as a 2x2 matrix. -/
def idMat : SMatrix2x2 := ⟨1, 0, 0, 1⟩

/-- Row times 2x2 matrix (`H * P_pred`). -/
def SMatrix1x2.mul2 (h : SMatrix1x2) (M : SMatrix2x2) : SMatrix1x2 :=
  ⟨h.m00 * M.m00 + h.m01 * M.m10, h.m00 * M.m01 + h.m01 * M.m11⟩

/-- Transpose of a 1x2 row (`ROOT::Math::Transpose(H)`). -/
def SMatrix1x2.transp (h : SMatrix1x2) : SMatrix2x1 := ⟨h.m00, h.m01⟩

/-- Row times column, a 1x1 result (`(H * P_pred) * Transpose(H)`). -/
def SMatrix1x2.mulCol (h : SMatrix1x2) (c : SMatrix2x1) : ℝ :=
  h.m00 * c.m00 + h.m01 * c.m10

/-- 2x2 matrix times a column (`P_pred * Transpose(H)`). -/
def SMatrix2x2.mulCol (M : SMatrix2x2) (c : SMatrix2x1) : SMatrix2x1 :=
  ⟨M.m00 * c.m00 + M.m01 * c.m10, M.m10 * c.m00 + M.m11 * c.m10⟩

/-- Column times row, a 2x2 result (`K * H`). -/
def SMatrix2x1.mulRow (c : SMatrix2x1) (h : SMatrix1x2) : SMatrix2x2 :=
  ⟨c.m00 * h.m00, c.m00 * h.m01, c.m10 * h.m00, c.m10 * h.m01⟩

/-- Column scaled by a 1x1 factor (`(P_pred * Transpose(H)) * S_inv`). -/
def SMatrix2x1.smul (c : SMatrix2x1) (s : ℝ) : SMatrix2x1 :=
  ⟨c.m00 * s, c.m10 * s⟩

/-- Row times state vector (`H * x_pred`), a 1x1 result. -/
def SMatrix1x2.mulVec (h : SMatrix1x2) (v : SVector2) : ℝ :=
  h.m00 * v.y + h.m01 * v.phi

/-! Detector and physics parameters of the source. -/

def n_layers : ℕ := 10

def layer_x_positions : List ℚ := [10, 20, 30, 40, 50, 60, 70, 80, 90, 100]

/-- Measurement smearing, `2.0` cm. -/
def measurement_error : ℝ := 2

/-- Process noise, `0.01`. -/
def process_noise_q : ℝ := 1 / 100

def pt : ℝ := 1

def B : ℝ := 1

/-- Radius of curvature, `(pt * 100) / (0.3 * B)`. -/
def R : ℝ := (pt * 100) / ((3 / 10) * B)

/-- `propagate(state_k, x_k, x_k1)` of the source: advances `[y, phi]` over
`delta_x = x_k1 - x_k`. -/
def propagate (state_k : SVector2) (x_k x_k1 : ℝ) : SVector2 :=
  let y := state_k.y
  let phi := state_k.phi
  let delta_x := x_k1 - x_k
  ⟨y + delta_x * Real.tan phi, phi - (delta_x / R) / Real.cos phi⟩

/-- `jacobian_F(state_k, x_k, x_k1)` of the source: the 2x2 Jacobian of
`propagate` with respect to the state. -/
def jacobian_F (state_k : SVector2) (x_k x_k1 : ℝ) : SMatrix2x2 :=
  let phi := state_k.phi
  let delta_x := x_k1 - x_k
  ⟨1, delta_x * (1 + Real.tan phi * Real.tan phi),
   0, 1 - (delta_x / R) * (Real.sin phi / (Real.cos phi * Real.cos phi))⟩

/-! The Kalman filter of `main` (section 3 of the source). -/

/-- Measurement matrix `H = [1, 0]` (only `y` is measured). -/
def H : SMatrix1x2 := ⟨1, 0⟩

/-- Measurement noise covariance `R_matrix(0,0) = measurement_error^2`. -/
def R_matrix : ℝ := measurement_error * measurement_error

/-- Process noise covariance `Q = diag(0, process_noise_q)` (entries the
source does not assign are zero). -/
def Q : SMatrix2x2 := ⟨0, 0, 0, process_noise_q⟩

/-- Initial covariance `P_est = diag(100, 1)` (entries the source does not
assign are zero). -/
def P_init : SMatrix2x2 := ⟨100, 0, 0, 1⟩

/-- Prediction-step covariance `P_pred = F * P_est * Transpose(F) + Q`. -/
def predictP (F P_est : SMatrix2x2) : SMatrix2x2 :=
  ((F.mul P_est).mul F.transpose).add Q

/-- Innovation covariance `S = H * P_pred * Transpose(H) + R_matrix`
(a 1x1, hence a scalar). -/
def innovS (P_pred : SMatrix2x2) : ℝ :=
  (H.mul2 P_pred).mulCol H.transp + R_matrix

/-- Kalman gain `K = P_pred * Transpose(H) * S_inv`. -/
def kalmanK (P_pred : SMatrix2x2) (S_inv : ℝ) : SMatrix2x1 :=
  (P_pred.mulCol H.transp).smul S_inv

/-- Posterior covariance `P_est = (Identity - K * H) * P_pred`. -/
def updateP (K : SMatrix2x1) (P_pred : SMatrix2x2) : SMatrix2x2 :=
  (idMat.sub (K.mulRow H)).mul P_pred

/-- Result of one iteration of the filter loop.  `P_pred` and `S` replicate
the loop's intermediate values so that the specification can speak about
them. -/
structure KFStepOut where
  x_est : SVector2
  P_est : SMatrix2x2
  P_pred : SMatrix2x2
  S : ℝ

/-- One iteration of the Kalman filter loop of the source (prediction step
followed by update step).  `S.Invert(S_inv)` is modelled by `S⁻¹` (see the
file header). -/
def kfStep (x_est : SVector2) (P_est : SMatrix2x2) (last_kf_x cur_x meas : ℝ) :
    KFStepOut :=
  let F := jacobian_F x_est last_kf_x cur_x
  let x_pred := propagate x_est last_kf_x cur_x
  let P_pred := predictP F P_est
  let y_residual := meas - H.mulVec x_pred
  let S := innovS P_pred
  let S_inv := S⁻¹
  let K := kalmanK P_pred S_inv
  ⟨⟨x_pred.y + K.m00 * y_residual, x_pred.phi + K.m10 * y_residual⟩,
   updateP K P_pred, P_pred, S⟩

/-- True initial state `(y, phi) = (5.0, -0.2)`. -/
def true_state_initial : SVector2 := ⟨5, -1/5⟩

/-! Section 1 of `main`: ground truth simulation.  The inner loop
`for (x_step = last_x; x_step < current_x; x_step += 0.5)` is modelled with
the step width as a parameter `s` (the source instantiates `s = 1/2`) and a
fuel argument bounding the iteration count; the loop itself still exits on
the source's condition `x_step < current_x`, and at the source's parameters
it does so long before the fuel runs out. -/

/-- The inner ground-truth loop over one inter-layer segment: returns the
appended `(true_x, true_y)` samples and the state after the segment. -/
def denseSeg (s : ℚ) : ℕ → ℚ → ℚ → SVector2 → List ℚ × List ℝ × SVector2
  | 0, _, _, st => ([], [], st)
  | fuel + 1, x_step, current_x, st =>
    if x_step < current_x then
      let st' := propagate st (x_step : ℝ) ((x_step + s : ℚ) : ℝ)
      let r := denseSeg s fuel (x_step + s) current_x st'
      ((x_step + s) :: r.1, st'.y :: r.2.1, r.2.2)
    else ([], [], st)

/-- The outer ground-truth loop over the layer list (carrying `last_x` and
the current true state). -/
def denseSim (s : ℚ) (fuel : ℕ) :
    List ℚ → ℚ → SVector2 → List ℚ × List ℝ
  | [], _, _ => ([], [])
  | current_x :: rest, last_x, st =>
    let r := denseSeg s fuel last_x current_x st
    let r2 := denseSim s fuel rest current_x r.2.2
    (r.1 ++ r2.1, r.2.1 ++ r2.2)

/-- The `true_x` samples alone (they are pushed independently of the state
in the source, so they are a pure `ℚ` computation). -/
def denseSegX (s : ℚ) : ℕ → ℚ → ℚ → List ℚ
  | 0, _, _ => []
  | fuel + 1, x_step, current_x =>
    if x_step < current_x then (x_step + s) :: denseSegX s fuel (x_step + s) current_x
    else []

def denseSimX (s : ℚ) (fuel : ℕ) : List ℚ → ℚ → List ℚ
  | [], _ => []
  | current_x :: rest, last_x =>
    denseSegX s fuel last_x current_x ++ denseSimX s fuel rest current_x

/-- Fuel for the ground-truth loops; ample for the source's configuration
(20 iterations per segment at step `1/2`). -/
def denseFuel : ℕ := 1000

/-! Section 2 of `main`: simulated measurements.  One `rng.Gaus` sample per
layer, consumed in layer order; `i` is the index of the next sample. -/

/-- The measurement loop: layer-to-layer propagation of the true state plus
one noise sample per layer. -/
def measFold (noise : ℕ → ℝ) : List ℚ → ℕ → SVector2 → ℚ → List ℝ
  | [], _, _, _ => []
  | current_x :: rest, i, st, last_x =>
    let st' := propagate st (last_x : ℝ) (current_x : ℝ)
    (st'.y + noise i) :: measFold noise rest (i + 1) st' current_x

/-- The layer-to-layer propagated true `y` values without noise (the
deterministic part of the measurement loop). -/
def trueYFold : List ℚ → SVector2 → ℚ → List ℝ
  | [], _, _ => []
  | current_x :: rest, st, last_x =>
    let st' := propagate st (last_x : ℝ) (current_x : ℝ)
    st'.y :: trueYFold rest st' current_x

def trueLayerYs : List ℝ := trueYFold layer_x_positions true_state_initial 0

/-- The initial filter guess: the true initial state smeared by the 11th and
12th `rng.Gaus` samples (`Gaus(0, 5.0)` on `y`, `Gaus(0, 0.1)` on `phi`). -/
def x_est_init (noise : ℕ → ℝ) : SVector2 :=
  ⟨true_state_initial.y + noise 10, true_state_initial.phi + noise 11⟩

/-- Accumulated output of the Kalman filter loop.  `kf` holds the
`(kf_x, kf_y)` pairs the source pushes; `covs`, `preds` and `svals`
replicate the per-layer posterior covariance, predicted covariance and
innovation covariance so the specification can speak about them. -/
structure KFRunOut where
  kf : List (ℚ × ℝ)
  covs : List SMatrix2x2
  preds : List SMatrix2x2
  svals : List ℝ

/-- The Kalman filter loop over `(layer position, measured y)` pairs,
carrying `(x_est, P_est, last_kf_x)`. -/
def kfFold : List (ℚ × ℝ) → SVector2 → SMatrix2x2 → ℚ → KFRunOut
  | [], _, _, _ => ⟨[], [], [], []⟩
  | (current_x, m) :: rest, xE, pE, last_kf_x =>
    let r := kfStep xE pE (last_kf_x : ℝ) (current_x : ℝ) m
    let out := kfFold rest r.x_est r.P_est current_x
    ⟨(current_x, r.x_est.y) :: out.kf, r.P_est :: out.covs,
     r.P_pred :: out.preds, r.S :: out.svals⟩

/-- The four emitted sequences of the program (the JSON record of
section 4 of `main`), plus the filter's diagnostic trace. -/
structure ProgOut where
  detector_layers : List ℚ
  true_x : List ℚ
  true_y : List ℝ
  hits : List (ℚ × ℝ)
  kfr : KFRunOut

/-- The whole program for a given ground-truth step width `s` (the source
uses `s = 1/2`) and injected noise stream. -/
def runProg (s : ℚ) (noise : ℕ → ℝ) : ProgOut :=
  let d := denseSim s denseFuel layer_x_positions 0 true_state_initial
  let meas := measFold noise layer_x_positions 0 true_state_initial 0
  let kfr := kfFold (layer_x_positions.zip meas) (x_est_init noise) P_init 0
  ⟨layer_x_positions, d.1, d.2, layer_x_positions.zip meas, kfr⟩

/-! Claim theorems. -/

/-- C1: for every state `(y, φ)` with `|φ| < π/2` and all positions
`x_from`, `x_to`, `propagate` returns the state
`(y + Δx·tan φ, φ − (Δx/R)/cos φ)` with `Δx = x_to − x_from` and
`R = pt·100/(0.3·B) = 1000/3`. -/
theorem propagate_closed_form (y phi x_from x_to : ℝ)
    (h : |phi| < Real.pi / 2) :
    propagate ⟨y, phi⟩ x_from x_to =
      ⟨y + (x_to - x_from) * Real.tan phi,
       phi - ((x_to - x_from) / R) / Real.cos phi⟩ ∧
    R = pt * 100 / ((3 / 10) * B) ∧ R = 1000 / 3 := by
  refine ⟨rfl, rfl, ?_⟩
  norm_num [R, pt, B]

theorem propagate_closed_form_witness :
    |(0 : ℝ)| < Real.pi / 2 ∧
    propagate ⟨0, 0⟩ 0 1 =
      ⟨0 + (1 - 0) * Real.tan 0, 0 - ((1 - 0) / R) / Real.cos 0⟩ := by
  have h : |(0 : ℝ)| < Real.pi / 2 := by
    rw [abs_zero]; exact half_pos Real.pi_pos
  exact ⟨h, (propagate_closed_form 0 0 0 1 h).1⟩

/-- C3 (counterexample): the claim says that `propagate` at `|φ| ≥ π/2`
fails with a domain error rather than returning a value; but the source has
no domain check at all, and at the state `(0, 8/5)` (where `8/5 ≥ π/2`) it
silently returns the formula value. -/
theorem propagate_no_domain_guard_cex :
    Real.pi / 2 ≤ |(SVector2.mk 0 (8/5)).phi| ∧
    propagate ⟨0, 8/5⟩ 0 1 =
      ⟨0 + (1 - 0) * Real.tan (8/5), (8/5 : ℝ) - ((1 - 0) / R) / Real.cos (8/5)⟩ := by
  constructor
  · have hpi : Real.pi < 3.15 := Real.pi_lt_d2
    rw [show (SVector2.mk 0 (8/5)).phi = (8/5 : ℝ) from rfl,
      abs_of_nonneg (by norm_num : (0:ℝ) ≤ 8/5)]
    nlinarith
  · rfl

/-- C3 (amended): `propagate` and `jacobian_F` perform no domain check:
even for states with `|φ| ≥ π/2` they silently return the closed-form
expressions (built from the diverging `tan φ` and `sec φ`); no failure path
exists. -/
theorem propagate_total_beyond_domain (st : SVector2) (x_from x_to : ℝ)
    (h : Real.pi / 2 ≤ |st.phi|) :
    propagate st x_from x_to =
      ⟨st.y + (x_to - x_from) * Real.tan st.phi,
       st.phi - ((x_to - x_from) / R) / Real.cos st.phi⟩ ∧
    jacobian_F st x_from x_to =
      ⟨1, (x_to - x_from) * (1 + Real.tan st.phi * Real.tan st.phi),
       0, 1 - ((x_to - x_from) / R) *
             (Real.sin st.phi / (Real.cos st.phi * Real.cos st.phi))⟩ :=
  ⟨rfl, rfl⟩

theorem propagate_total_beyond_domain_witness :
    Real.pi / 2 ≤ |(SVector2.mk 0 (8/5)).phi| ∧
    propagate ⟨0, 8/5⟩ 0 1 =
      ⟨(0 : ℝ) + (1 - 0) * Real.tan (8/5),
       (8/5 : ℝ) - ((1 - 0) / R) / Real.cos (8/5)⟩ ∧
    jacobian_F ⟨0, 8/5⟩ 0 1 =
      ⟨1, (1 - 0) * (1 + Real.tan (8/5) * Real.tan (8/5)),
       0, 1 - ((1 - 0) / R) *
             (Real.sin (8/5) / (Real.cos (8/5) * Real.cos (8/5)))⟩ := by
  have h : Real.pi / 2 ≤ |(SVector2.mk 0 (8/5)).phi| := by
    have hpi : Real.pi < 3.15 := Real.pi_lt_d2
    rw [show (SVector2.mk 0 (8/5)).phi = (8/5 : ℝ) from rfl,
      abs_of_nonneg (by norm_num : (0:ℝ) ≤ 8/5)]
    nlinarith
  exact ⟨h, (propagate_total_beyond_domain ⟨0, 8/5⟩ 0 1 h).1,
    (propagate_total_beyond_domain ⟨0, 8/5⟩ 0 1 h).2⟩

/-- Helper: on `|φ| < π/2` the cosine is positive. -/
lemma cos_pos_of_abs_lt (phi : ℝ) (h : |phi| < Real.pi / 2) : 0 < Real.cos phi := by
  rcases abs_lt.mp h with ⟨h1, h2⟩
  exact Real.cos_pos_of_mem_Ioo ⟨h1, h2⟩

/-- C2: for every state with `|φ| < π/2` and all positions, `jacobian_F`
returns exactly the matrix of partial derivatives of `propagate` with
respect to `(y, φ)`: entries `(1, Δx·sec²φ = Δx·(1+tan²φ); 0,
1 − (Δx/R)·sinφ/cos²φ)`, and each entry is the true derivative of the
corresponding component of the `propagate` map. -/
theorem jacobian_F_is_derivative (y phi x_k x_k1 : ℝ)
    (h : |phi| < Real.pi / 2) :
    (jacobian_F ⟨y, phi⟩ x_k x_k1).m00 = 1 ∧
    (jacobian_F ⟨y, phi⟩ x_k x_k1).m01
      = (x_k1 - x_k) * (1 + Real.tan phi * Real.tan phi) ∧
    (jacobian_F ⟨y, phi⟩ x_k x_k1).m01 = (x_k1 - x_k) / Real.cos phi ^ 2 ∧
    (jacobian_F ⟨y, phi⟩ x_k x_k1).m10 = 0 ∧
    (jacobian_F ⟨y, phi⟩ x_k x_k1).m11
      = 1 - ((x_k1 - x_k) / R) * (Real.sin phi / Real.cos phi ^ 2) ∧
    HasDerivAt (fun t => (propagate ⟨t, phi⟩ x_k x_k1).y)
      (jacobian_F ⟨y, phi⟩ x_k x_k1).m00 y ∧
    HasDerivAt (fun t => (propagate ⟨y, t⟩ x_k x_k1).y)
      (jacobian_F ⟨y, phi⟩ x_k x_k1).m01 phi ∧
    HasDerivAt (fun t => (propagate ⟨t, phi⟩ x_k x_k1).phi)
      (jacobian_F ⟨y, phi⟩ x_k x_k1).m10 y ∧
    HasDerivAt (fun t => (propagate ⟨y, t⟩ x_k x_k1).phi)
      (jacobian_F ⟨y, phi⟩ x_k x_k1).m11 phi := by
  have hcos : Real.cos phi ≠ 0 := (cos_pos_of_abs_lt phi h).ne'
  have hsec : 1 + Real.tan phi * Real.tan phi = 1 / Real.cos phi ^ 2 := by
    rw [Real.tan_eq_sin_div_cos]
    field_simp
    nlinarith [Real.sin_sq_add_cos_sq phi]
  refine ⟨rfl, rfl, ?_, rfl, ?_, ?_, ?_, ?_, ?_⟩
  · show (x_k1 - x_k) * (1 + Real.tan phi * Real.tan phi) = _
    rw [hsec]; ring
  · show (1 : ℝ) - ((x_k1 - x_k) / R) *
        (Real.sin phi / (Real.cos phi * Real.cos phi)) = _
    ring_nf
  · -- ∂y'/∂y = 1
    show HasDerivAt (fun t => t + (x_k1 - x_k) * Real.tan phi) 1 y
    simpa using (hasDerivAt_id y).add_const ((x_k1 - x_k) * Real.tan phi)
  · -- ∂y'/∂φ = Δx · sec²φ
    have hd : HasDerivAt (fun t => y + (x_k1 - x_k) * Real.tan t)
        ((x_k1 - x_k) * (1 / Real.cos phi ^ 2)) phi := by
      exact ((Real.hasDerivAt_tan hcos).const_mul (x_k1 - x_k)).const_add y
    show HasDerivAt (fun t => y + (x_k1 - x_k) * Real.tan t)
        ((x_k1 - x_k) * (1 + Real.tan phi * Real.tan phi)) phi
    rw [hsec]
    exact hd
  · -- ∂φ'/∂y = 0
    show HasDerivAt (fun _ : ℝ => phi - ((x_k1 - x_k) / R) / Real.cos phi) 0 y
    exact hasDerivAt_const y _
  · -- ∂φ'/∂φ = 1 − (Δx/R)·sinφ/cos²φ
    have hinv : HasDerivAt (fun t => (Real.cos t)⁻¹)
        (-(-Real.sin phi) / Real.cos phi ^ 2) phi :=
      (Real.hasDerivAt_cos phi).inv hcos
    have hd : HasDerivAt (fun t => t - ((x_k1 - x_k) / R) * (Real.cos t)⁻¹)
        (1 - ((x_k1 - x_k) / R) * (-(-Real.sin phi) / Real.cos phi ^ 2)) phi :=
      (hasDerivAt_id phi).sub (hinv.const_mul ((x_k1 - x_k) / R))
    show HasDerivAt (fun t => t - ((x_k1 - x_k) / R) / Real.cos t)
        (1 - ((x_k1 - x_k) / R) *
          (Real.sin phi / (Real.cos phi * Real.cos phi))) phi
    simp only [div_eq_mul_inv]
    convert hd using 1
    ring_nf

theorem jacobian_F_is_derivative_witness :
    |(0 : ℝ)| < Real.pi / 2 ∧
    HasDerivAt (fun t => (propagate ⟨t, 0⟩ 0 1).y)
      (jacobian_F ⟨0, 0⟩ 0 1).m00 0 ∧
    HasDerivAt (fun t => (propagate ⟨(0 : ℝ), t⟩ 0 1).y)
      (jacobian_F ⟨0, 0⟩ 0 1).m01 0 ∧
    HasDerivAt (fun t => (propagate ⟨t, 0⟩ 0 1).phi)
      (jacobian_F ⟨0, 0⟩ 0 1).m10 0 ∧
    HasDerivAt (fun t => (propagate ⟨(0 : ℝ), t⟩ 0 1).phi)
      (jacobian_F ⟨0, 0⟩ 0 1).m11 0 := by
  have h : |(0 : ℝ)| < Real.pi / 2 := by
    rw [abs_zero]; exact half_pos Real.pi_pos
  obtain ⟨-, -, -, -, -, h1, h2, h3, h4⟩ := jacobian_F_is_derivative 0 0 0 1 h
  exact ⟨h, h1, h2, h3, h4⟩

/-- C5 (counterexample): the claim says the estimator never proceeds with
an unchecked reciprocal of a singular innovation covariance `S`; but the
update step performs no check at all: at a crafted covariance input with
`P_pred(0,0) = −4` the innovation covariance is exactly `0` and the step
still returns a result (the unchecked 1x1 inversion silently yields the
zero-initialised `S_inv`, hence zero gain). -/
theorem kfStep_singular_S_proceeds_cex :
    (kfStep ⟨0, 0⟩ ⟨-4, 0, 0, 0⟩ 5 5 7).S = 0 ∧
    (kfStep ⟨0, 0⟩ ⟨-4, 0, 0, 0⟩ 5 5 7).x_est = ⟨0, 0⟩ ∧
    (kfStep ⟨0, 0⟩ ⟨-4, 0, 0, 0⟩ 5 5 7).P_est = ⟨-4, 0, 0, 1/100⟩ := by
  refine ⟨?_, ?_, ?_⟩ <;>
    simp [kfStep, predictP, innovS, kalmanK, updateP, idMat, H, R_matrix,
      measurement_error, process_noise_q, Q, jacobian_F, propagate,
      SMatrix2x2.mul, SMatrix2x2.add, SMatrix2x2.sub, SMatrix2x2.transpose,
      SMatrix2x2.mulCol, SMatrix2x1.mulRow, SMatrix2x1.smul,
      SMatrix1x2.mul2, SMatrix1x2.mulCol, SMatrix1x2.transp,
      SMatrix1x2.mulVec] <;> norm_num

/-- Helper: with a singular innovation covariance the modelled unchecked
inversion yields gain zero, and the posterior equals the prediction. -/
lemma updateP_zero_gain (p : SMatrix2x2) : updateP (kalmanK p 0⁻¹) p = p := by
  obtain ⟨a, b, c, d⟩ := p
  simp only [updateP, kalmanK, idMat, H, SMatrix1x2.transp, SMatrix2x2.mulCol,
    SMatrix2x1.smul, SMatrix2x1.mulRow, SMatrix2x2.sub, SMatrix2x2.mul,
    inv_zero, SMatrix2x2.mk.injEq]
  refine ⟨by ring, by ring, by ring, by ring⟩

/-- C5 (amended): the update step inverts `S` with no singularity check and
never fails; when `S` is singular the (modelled) unchecked inversion yields
a zero gain, so the step silently degenerates to the predicted state and
predicted covariance.  (In this program `S` is in fact always positive, see
the C10 theorem, so this branch is unreachable in the actual run.) -/
theorem kfStep_singular_S_skips_update (xE : SVector2) (pE : SMatrix2x2)
    (lx cx m : ℝ) (h : (kfStep xE pE lx cx m).S = 0) :
    (kfStep xE pE lx cx m).x_est = propagate xE lx cx ∧
    (kfStep xE pE lx cx m).P_est = (kfStep xE pE lx cx m).P_pred := by
  have hS : innovS (predictP (jacobian_F xE lx cx) pE) = 0 := h
  constructor
  · show SVector2.mk _ _ = _
    rw [hS]
    simp [kalmanK, SMatrix2x1.smul, SMatrix2x2.mulCol]
  · show updateP _ _ = _
    rw [hS]
    have hP : (kfStep xE pE lx cx m).P_pred
        = predictP (jacobian_F xE lx cx) pE := rfl
    rw [hP]
    exact updateP_zero_gain _

/-- C4 (counterexample): the claim says symmetry of the posterior covariance
is numerically enforced (e.g. by averaging with the transpose); but the
update `P_est = (I − K·H)·P_pred` contains no symmetrisation step: fed an
asymmetric covariance it returns an asymmetric posterior. -/
theorem updateP_no_symmetrization_cex :
    (kfStep ⟨0, 0⟩ ⟨0, 1, 0, 0⟩ 5 5 7).P_est.m01 ≠
      (kfStep ⟨0, 0⟩ ⟨0, 1, 0, 0⟩ 5 5 7).P_est.m10 := by
  simp only [kfStep, predictP, innovS, kalmanK, updateP, idMat, H, R_matrix,
    measurement_error, process_noise_q, Q, jacobian_F, propagate,
    SMatrix2x2.mul, SMatrix2x2.add, SMatrix2x2.sub, SMatrix2x2.transpose,
    SMatrix2x2.mulCol, SMatrix2x1.mulRow, SMatrix2x1.smul,
    SMatrix1x2.mul2, SMatrix1x2.mulCol, SMatrix1x2.transp,
    SMatrix1x2.mulVec]
  norm_num

/-! Positive semi-definiteness of 2x2 covariance matrices, via the
quadratic form. -/

/-- The quadratic form `(u, v)ᵗ · M · (u, v)`. -/
def qf (M : SMatrix2x2) (u v : ℝ) : ℝ :=
  u * (M.m00 * u + M.m01 * v) + v * (M.m10 * u + M.m11 * v)

/-- `M` is positive semi-definite: its quadratic form is nonnegative. -/
def PSD2 (M : SMatrix2x2) : Prop := ∀ u v : ℝ, 0 ≤ qf M u v

lemma psd_m00 (M : SMatrix2x2) (h : PSD2 M) : 0 ≤ M.m00 := by
  have := h 1 0
  simpa [qf] using this

lemma psd_m11 (M : SMatrix2x2) (h : PSD2 M) : 0 ≤ M.m11 := by
  have := h 0 1
  simpa [qf] using this

/-- Discriminant condition for a symmetric PSD 2x2 matrix. -/
lemma psd_disc (M : SMatrix2x2) (hsym : M.m01 = M.m10) (h : PSD2 M) :
    M.m01 ^ 2 ≤ M.m00 * M.m11 := by
  obtain ⟨a, b, c, d⟩ := M
  simp only at hsym
  subst hsym
  have hq : ∀ u v : ℝ, 0 ≤ a * u ^ 2 + 2 * b * u * v + d * v ^ 2 := by
    intro u v
    have := h u v
    simp only [qf] at this
    nlinarith [this]
  have ha : 0 ≤ a := by have := hq 1 0; nlinarith
  have hd : 0 ≤ d := by have := hq 0 1; nlinarith
  show b ^ 2 ≤ a * d
  rcases eq_or_lt_of_le ha with ha0 | hapos
  · rcases eq_or_lt_of_le hd with hd0 | hdpos
    · -- a = 0 and d = 0: the form at (1, −b) gives −2b² ≥ 0
      have := hq 1 (-b)
      nlinarith
    · -- a = 0, d > 0: the form at (d, −b) gives −d·b² ≥ 0
      have := hq d (-b)
      nlinarith
  · -- a > 0: the form at (−b, a) gives a·(a·d − b²) ≥ 0
    have := hq (-b) a
    nlinarith

/-- The prediction step preserves symmetry. -/
lemma predictP_sym (F P : SMatrix2x2) (h : P.m01 = P.m10) :
    (predictP F P).m01 = (predictP F P).m10 := by
  simp only [predictP, SMatrix2x2.mul, SMatrix2x2.transpose, SMatrix2x2.add, Q]
  rw [h]
  ring

/-- The quadratic form of `F·P·Fᵗ + Q` is the form of `P` at the transformed
vector plus the process-noise contribution. -/
lemma qf_predictP (F P : SMatrix2x2) (u v : ℝ) :
    qf (predictP F P) u v =
      qf P (u * F.m00 + v * F.m10) (u * F.m01 + v * F.m11)
        + process_noise_q * v ^ 2 := by
  simp only [qf, predictP, SMatrix2x2.mul, SMatrix2x2.transpose,
    SMatrix2x2.add, Q]
  ring

/-- The prediction step preserves positive semi-definiteness. -/
lemma predictP_psd (F P : SMatrix2x2) (h : PSD2 P) : PSD2 (predictP F P) := by
  intro u v
  rw [qf_predictP]
  have h1 := h (u * F.m00 + v * F.m10) (u * F.m01 + v * F.m11)
  have h2 : 0 ≤ process_noise_q * v ^ 2 := by
    have : (0:ℝ) ≤ v ^ 2 := sq_nonneg v
    simp only [process_noise_q]
    nlinarith
  linarith

/-- The innovation covariance is the `(0,0)` entry of the predicted
covariance plus `σ_meas² = 4`. -/
lemma innovS_eq (P : SMatrix2x2) : innovS P = P.m00 + 4 := by
  simp only [innovS, H, SMatrix1x2.mul2, SMatrix1x2.mulCol, SMatrix1x2.transp,
    R_matrix, measurement_error]
  ring

/-- The innovation covariance of a PSD predicted covariance is positive. -/
lemma innovS_pos (P : SMatrix2x2) (h : PSD2 P) : 0 < innovS P := by
  rw [innovS_eq]
  have := psd_m00 P h
  linarith

/-- The posterior covariance entries in closed form (with
`S = P_pred(0,0) + 4`). -/
lemma updateP_entries (p : SMatrix2x2) :
    updateP (kalmanK p (innovS p)⁻¹) p =
      ⟨(1 - p.m00 * (p.m00 + 4)⁻¹) * p.m00,
       (1 - p.m00 * (p.m00 + 4)⁻¹) * p.m01,
       p.m10 - p.m10 * (p.m00 + 4)⁻¹ * p.m00,
       p.m11 - p.m10 * (p.m00 + 4)⁻¹ * p.m01⟩ := by
  obtain ⟨a, b, c, d⟩ := p
  rw [innovS_eq]
  simp only [updateP, kalmanK, idMat, H, SMatrix1x2.transp, SMatrix2x2.mulCol,
    SMatrix2x1.smul, SMatrix2x1.mulRow, SMatrix2x2.sub, SMatrix2x2.mul,
    SMatrix2x2.mk.injEq]
  refine ⟨by ring, by ring, by ring, by ring⟩

/-- The update step of the source, with `S = P_pred(0,0) + 4`, preserves
symmetry of the covariance. -/
lemma updateP_sym (p : SMatrix2x2) (hsym : p.m01 = p.m10) :
    (updateP (kalmanK p (innovS p)⁻¹) p).m01
      = (updateP (kalmanK p (innovS p)⁻¹) p).m10 := by
  rw [updateP_entries]
  simp only
  rw [hsym]
  ring

/-- The update step of the source preserves positive semi-definiteness. -/
lemma updateP_psd (p : SMatrix2x2) (hsym : p.m01 = p.m10) (hpsd : PSD2 p) :
    PSD2 (updateP (kalmanK p (innovS p)⁻¹) p) := by
  have ha : 0 ≤ p.m00 := psd_m00 p hpsd
  have hdisc : p.m01 ^ 2 ≤ p.m00 * p.m11 := psd_disc p hsym hpsd
  intro u v
  rw [updateP_entries]
  obtain ⟨a, b, c, d⟩ := p
  simp only at hsym ha hdisc
  subst hsym
  have hq := hpsd u v
  simp only [qf] at hq ⊢
  have hSpos : (0:ℝ) < a + 4 := by linarith
  have key :
      u * ((1 - a * (a + 4)⁻¹) * a * u + (1 - a * (a + 4)⁻¹) * b * v)
        + v * ((b - b * (a + 4)⁻¹ * a) * u + (d - b * (a + 4)⁻¹ * b) * v)
      = (4 * (u * (a * u + b * v) + v * (b * u + d * v))
          + (a * d - b ^ 2) * v ^ 2) / (a + 4) := by
    field_simp
    ring
  rw [key]
  apply div_nonneg _ (le_of_lt hSpos)
  nlinarith [hq, hdisc, sq_nonneg v]

/-- One filter iteration preserves the covariance invariant and yields a
positive innovation covariance. -/
lemma kfStep_invariant (xE : SVector2) (pE : SMatrix2x2) (lx cx m : ℝ)
    (hsym : pE.m01 = pE.m10) (hpsd : PSD2 pE) :
    ((kfStep xE pE lx cx m).P_pred.m01 = (kfStep xE pE lx cx m).P_pred.m10)
    ∧ PSD2 (kfStep xE pE lx cx m).P_pred
    ∧ (kfStep xE pE lx cx m).S = (kfStep xE pE lx cx m).P_pred.m00 + 4
    ∧ 0 < (kfStep xE pE lx cx m).S
    ∧ ((kfStep xE pE lx cx m).P_est.m01 = (kfStep xE pE lx cx m).P_est.m10)
    ∧ PSD2 (kfStep xE pE lx cx m).P_est := by
  have hpp : (kfStep xE pE lx cx m).P_pred
      = predictP (jacobian_F xE lx cx) pE := rfl
  have hs : (kfStep xE pE lx cx m).S
      = innovS (predictP (jacobian_F xE lx cx) pE) := rfl
  have hpe : (kfStep xE pE lx cx m).P_est
      = updateP (kalmanK (predictP (jacobian_F xE lx cx) pE)
          (innovS (predictP (jacobian_F xE lx cx) pE))⁻¹)
          (predictP (jacobian_F xE lx cx) pE) := rfl
  have h1 := predictP_sym (jacobian_F xE lx cx) pE hsym
  have h2 := predictP_psd (jacobian_F xE lx cx) pE hpsd
  refine ⟨by rw [hpp]; exact h1, by rw [hpp]; exact h2, ?_, ?_, ?_, ?_⟩
  · rw [hs, hpp, innovS_eq]
  · rw [hs]; exact innovS_pos _ h2
  · rw [hpe]; exact updateP_sym _ h1
  · rw [hpe]; exact updateP_psd _ h1 h2

/-- The filter-loop invariant: starting from a symmetric PSD covariance,
every posterior covariance in the trace is symmetric and PSD, every
predicted covariance is PSD, and every innovation covariance equals the
predicted `(0,0)` entry plus `4` and is positive. -/
lemma kfFold_invariant (pairs : List (ℚ × ℝ)) (xE : SVector2)
    (pE : SMatrix2x2) (lastX : ℚ)
    (hsym : pE.m01 = pE.m10) (hpsd : PSD2 pE) :
    ((kfFold pairs xE pE lastX).covs.Forall
      fun P => P.m01 = P.m10 ∧ PSD2 P)
    ∧ (((kfFold pairs xE pE lastX).preds.zip
          (kfFold pairs xE pE lastX).svals).Forall
        fun pr => PSD2 pr.1 ∧ pr.2 = pr.1.m00 + 4 ∧ 0 < pr.2) := by
  induction pairs generalizing xE pE lastX with
  | nil => simp [kfFold, List.Forall]
  | cons hd tl ih =>
    obtain ⟨cx, m⟩ := hd
    obtain ⟨hps, hpp, hse, hsp, hes, hep⟩ :=
      kfStep_invariant xE pE (lastX : ℝ) (cx : ℝ) m hsym hpsd
    obtain ⟨ihc, ihz⟩ := ih (kfStep xE pE (lastX : ℝ) (cx : ℝ) m).x_est
      (kfStep xE pE (lastX : ℝ) (cx : ℝ) m).P_est cx hes hep
    constructor
    · show List.Forall _ (_ :: _)
      rw [List.forall_cons]
      exact ⟨⟨hes, hep⟩, ihc⟩
    · show List.Forall _ ((_, _) :: _)
      rw [List.forall_cons]
      exact ⟨⟨hpp, hse, hsp⟩, ihz⟩

lemma P_init_sym : P_init.m01 = P_init.m10 := rfl

lemma P_init_psd : PSD2 P_init := by
  intro u v
  simp only [qf, P_init]
  nlinarith [sq_nonneg u, sq_nonneg v]

/-- C4 (amended): after every per-layer update of the run, the posterior
covariance is symmetric and positive semi-definite (this holds by the
algebra of the predict/update steps, which preserve both properties from
the diagonal initial covariance; symmetry is not *enforced* by any
transpose-averaging step — see the counterexample). -/
theorem covariance_sym_psd_invariant (noise : ℕ → ℝ) :
    ((runProg (1/2) noise).kfr.covs).Forall
      fun P => P.m01 = P.m10 ∧ PSD2 P := by
  have h : (runProg (1/2) noise).kfr
      = kfFold (layer_x_positions.zip
          (measFold noise layer_x_positions 0 true_state_initial 0))
          (x_est_init noise) P_init 0 := rfl
  rw [h]
  exact (kfFold_invariant _ _ _ _ P_init_sym P_init_psd).1

/-- C10: in every update step of the run, the innovation covariance is the
scalar `S = P_pred(0,0) + 4` (`σ_meas² = 4 > 0`); the predicted covariance
is PSD (inductively from the diagonal initial covariance and `Q`), so `S`
is strictly positive and its inversion is always well-defined. -/
theorem innovation_S_positive (noise : ℕ → ℝ) :
    (((runProg (1/2) noise).kfr.preds).zip
        ((runProg (1/2) noise).kfr.svals)).Forall
      fun pr => PSD2 pr.1 ∧ pr.2 = pr.1.m00 + 4 ∧ 0 < pr.2 := by
  have h : (runProg (1/2) noise).kfr
      = kfFold (layer_x_positions.zip
          (measFold noise layer_x_positions 0 true_state_initial 0))
          (x_est_init noise) P_init 0 := rfl
  rw [h]
  exact (kfFold_invariant _ _ _ _ P_init_sym P_init_psd).2

/-- C6: with the fixed configuration, the run yields exactly 10 hits and
exactly 10 fitted points, one per configured layer in layer order, and each
hit is the layer-to-layer propagated true `y` plus the corresponding
injected Gaussian noise sample. -/
theorem scenario_counts_and_hits (noise : ℕ → ℝ) :
    (runProg (1/2) noise).hits.length = 10 ∧
    (runProg (1/2) noise).kfr.kf.length = 10 ∧
    (runProg (1/2) noise).hits.map Prod.fst = layer_x_positions ∧
    (runProg (1/2) noise).kfr.kf.map Prod.fst = layer_x_positions ∧
    (runProg (1/2) noise).hits.map Prod.snd =
      List.zipWith (fun a b => a + b) trueLayerYs
        ((List.range 10).map noise) := by
  refine ⟨rfl, rfl, rfl, rfl, rfl⟩

/-- C7: the fitted track is a function of the measurement sequence, the
initial-guess state and the filter constants only; it does not depend on
the dense true-path computation (here: not on its step width `s`), so two
runs with equal measurements and equal initial guesses produce identical
`kf_track` outputs even when their `true_track` sequences differ. -/
theorem kf_track_independent_of_true_path (s1 s2 : ℚ) (n1 n2 : ℕ → ℝ)
    (hm : measFold n1 layer_x_positions 0 true_state_initial 0
        = measFold n2 layer_x_positions 0 true_state_initial 0)
    (hg : x_est_init n1 = x_est_init n2) :
    (runProg s1 n1).kfr.kf = (runProg s2 n2).kfr.kf := by
  show (kfFold (layer_x_positions.zip
      (measFold n1 layer_x_positions 0 true_state_initial 0))
      (x_est_init n1) P_init 0).kf = _
  rw [hm, hg]
  rfl

theorem kf_track_independent_of_true_path_witness :
    (runProg (1/2) (fun _ => 0)).kfr.kf
      = (runProg 1 (fun _ => 0)).kfr.kf :=
  kf_track_independent_of_true_path (1/2) 1 (fun _ => 0) (fun _ => 0) rfl rfl

/-- Helper for C8: the measurement loop reads only the noise samples at
indices `i, …, i + layers.length − 1`. -/
lemma measFold_congr (n1 n2 : ℕ → ℝ) (layers : List ℚ) (i : ℕ)
    (st : SVector2) (lastX : ℚ)
    (h : ∀ k, i ≤ k → k < i + layers.length → n1 k = n2 k) :
    measFold n1 layers i st lastX = measFold n2 layers i st lastX := by
  induction layers generalizing i st lastX with
  | nil => rfl
  | cons cx rest ih =>
    simp only [measFold]
    rw [h i le_rfl (by simp only [List.length_cons]; omega),
      ih (i+1) _ cx (fun k hk1 hk2 => h k (by omega)
        (by simp only [List.length_cons] at hk2 ⊢; omega))]

/-- C8: for a fixed configuration the program is a deterministic function
of the injected noise stream, and it consumes exactly the first 12 samples
(one per hit plus the two initial-guess smears) in a fixed order: two noise
streams that agree on those indices give identical `hits` and `kf_track`
sequences. -/
theorem run_deterministic_in_noise (n1 n2 : ℕ → ℝ)
    (h : ∀ k, k < 12 → n1 k = n2 k) :
    (runProg (1/2) n1).hits = (runProg (1/2) n2).hits ∧
    (runProg (1/2) n1).kfr.kf = (runProg (1/2) n2).kfr.kf := by
  have hm : measFold n1 layer_x_positions 0 true_state_initial 0
      = measFold n2 layer_x_positions 0 true_state_initial 0 := by
    refine measFold_congr n1 n2 layer_x_positions 0 true_state_initial 0 ?_
    intro k _ hk
    simp only [layer_x_positions, List.length_cons, List.length_nil] at hk
    exact h k (by omega)
  have hg : x_est_init n1 = x_est_init n2 := by
    simp only [x_est_init, h 10 (by norm_num), h 11 (by norm_num)]
  constructor
  · show layer_x_positions.zip (measFold n1 _ _ _ _) = _
    rw [hm]
    rfl
  · show (kfFold (layer_x_positions.zip
        (measFold n1 layer_x_positions 0 true_state_initial 0))
        (x_est_init n1) P_init 0).kf = _
    rw [hm, hg]
    rfl

theorem run_deterministic_in_noise_witness :
    (runProg (1/2) (fun _ => 0)).hits
        = (runProg (1/2) (fun k => k * 0)).hits ∧
    (runProg (1/2) (fun _ => 0)).kfr.kf
        = (runProg (1/2) (fun k => k * 0)).kfr.kf :=
  run_deterministic_in_noise (fun _ => 0) (fun k => k * 0)
    (fun k _ => by simp)

/-! Ordering of the emitted sequences (C9). -/

/-- The `true_x` samples of the full ground-truth loop are the pure
x-computation. -/
lemma denseSeg_xs (s : ℚ) :
    ∀ (f : ℕ) (x c : ℚ) (st : SVector2),
      (denseSeg s f x c st).1 = denseSegX s f x c := by
  intro f
  induction f with
  | zero => intro x c st; rfl
  | succ f ih =>
    intro x c st
    rw [denseSeg, denseSegX]
    split
    · simp only [ih]
    · rfl

lemma denseSim_xs (s : ℚ) (f : ℕ) :
    ∀ (layers : List ℚ) (lx : ℚ) (st : SVector2),
      (denseSim s f layers lx st).1 = denseSimX s f layers lx := by
  intro layers
  induction layers with
  | nil => intro lx st; rfl
  | cons c rest ih =>
    intro lx st
    rw [denseSim, denseSimX]
    simp only [denseSeg_xs, ih]

/-- Every sample of one ground-truth segment lies strictly above the
segment's start. -/
lemma denseSegX_elem_gt (s : ℚ) (hs : 0 < s) :
    ∀ (f : ℕ) (x c e : ℚ), e ∈ denseSegX s f x c → x + s ≤ e := by
  intro f
  induction f with
  | zero => intro x c e he; simp [denseSegX] at he
  | succ f ih =>
    intro x c e he
    rw [denseSegX] at he
    by_cases hx : x < c
    · rw [if_pos hx] at he
      rcases List.mem_cons.mp he with rfl | hmem
      · exact le_rfl
      · have := ih (x + s) c e hmem
        linarith
    · rw [if_neg hx] at he
      simp at he

/-- Every sample of one ground-truth segment lies strictly below
`current_x + s`. -/
lemma denseSegX_elem_lt (s : ℚ) :
    ∀ (f : ℕ) (x c e : ℚ), e ∈ denseSegX s f x c → e < c + s := by
  intro f
  induction f with
  | zero => intro x c e he; simp [denseSegX] at he
  | succ f ih =>
    intro x c e he
    rw [denseSegX] at he
    by_cases hx : x < c
    · rw [if_pos hx] at he
      rcases List.mem_cons.mp he with rfl | hmem
      · linarith
      · exact ih (x + s) c e hmem
    · rw [if_neg hx] at he
      simp at he

/-- One ground-truth segment is strictly increasing (as a chain from its
start value). -/
lemma denseSegX_chain (s : ℚ) (hs : 0 < s) :
    ∀ (f : ℕ) (x c : ℚ), List.Chain (fun a b => a < b) x (denseSegX s f x c) := by
  intro f
  induction f with
  | zero => intro x c; exact List.Chain.nil
  | succ f ih =>
    intro x c
    rw [denseSegX]
    by_cases hx : x < c
    · rw [if_pos hx]
      exact List.Chain.cons (by linarith) (ih (x + s) c)
    · rw [if_neg hx]
      exact List.Chain.nil

/-- Every sample of the full ground-truth loop lies at or above
`last_x + s`, provided the layer positions ascend from `last_x`. -/
lemma denseSimX_elem_ge (s : ℚ) (hs : 0 < s) (f : ℕ) :
    ∀ (layers : List ℚ) (lx e : ℚ),
      List.Chain (fun a b => a < b) lx layers →
      e ∈ denseSimX s f layers lx → lx + s ≤ e := by
  intro layers
  induction layers with
  | nil => intro lx e _ he; simp [denseSimX] at he
  | cons c rest ih =>
    intro lx e hch he
    rw [denseSimX] at he
    rcases List.chain_cons.mp hch with ⟨hlc, hch'⟩
    rcases List.mem_append.mp he with hseg | hsim
    · exact denseSegX_elem_gt s hs f lx c e hseg
    · have := ih c e hch' hsim
      linarith

/-- The `true_x` sequence is strictly increasing, provided the layer
positions ascend from the initial `last_x`. -/
lemma denseSimX_chain (s : ℚ) (hs : 0 < s) (f : ℕ) :
    ∀ (layers : List ℚ) (lx : ℚ),
      List.Chain (fun a b => a < b) lx layers →
      List.Chain' (fun a b => a < b) (denseSimX s f layers lx) := by
  intro layers
  induction layers with
  | nil => intro lx _; exact List.chain'_nil
  | cons c rest ih =>
    intro lx hch
    rcases List.chain_cons.mp hch with ⟨hlc, hch'⟩
    rw [denseSimX]
    refine List.Chain'.append ?_ (ih c hch') ?_
    · have h1 : List.Chain' (fun a b => a < b) (lx :: denseSegX s f lx c) :=
        denseSegX_chain s hs f lx c
      exact h1.tail
    · intro a ha b hb
      have ha' : a ∈ denseSegX s f lx c := by
        rcases List.mem_getLast?_eq_getLast ha with ⟨hne, rfl⟩
        exact List.getLast_mem hne
      have hb' : b ∈ denseSimX s f rest c := List.mem_of_mem_head? hb
      have h1 := denseSegX_elem_lt s f lx c a ha'
      have h2 := denseSimX_elem_ge s hs f rest c b hch' hb'
      linarith

/-- A segment whose span is an exact positive multiple of the step width
ends exactly at `current_x`. -/
lemma denseSegX_getLast (s : ℚ) (hs : 0 < s) :
    ∀ (m f : ℕ) (x c : ℚ), c = x + (m + 1 : ℕ) * s → m + 1 ≤ f →
      (denseSegX s f x c).getLast? = some c := by
  intro m
  induction m with
  | zero =>
    intro f x c hc hf
    obtain ⟨f', rfl⟩ : ∃ f', f = f' + 1 := ⟨f - 1, by omega⟩
    have hxc : x + s = c := by rw [hc]; push_cast; ring
    have hx : x < c := by rw [← hxc]; linarith
    rw [denseSegX, if_pos hx]
    have hnil : denseSegX s f' (x + s) c = [] := by
      cases f' with
      | zero => rfl
      | succ f'' => rw [denseSegX, if_neg (by rw [hxc]; exact lt_irrefl c)]
    rw [hnil, hxc]
    rfl
  | succ m ih =>
    intro f x c hc hf
    obtain ⟨f', rfl⟩ : ∃ f', f = f' + 1 := ⟨f - 1, by omega⟩
    have hx : x < c := by
      rw [hc]; push_cast
      nlinarith [hs, (by positivity : (0:ℝ) ≤ 0)]
    rw [denseSegX, if_pos hx]
    have htail := ih f' (x + s) c (by rw [hc]; push_cast; ring) (by omega)
    cases hsplit : denseSegX s f' (x + s) c with
    | nil => rw [hsplit] at htail; simp at htail
    | cons a t =>
      rw [hsplit] at htail
      rw [List.getLast?_cons_cons]
      exact htail

/-- A segment over a nonempty span is nonempty. -/
lemma denseSegX_ne_nil (s : ℚ) (f : ℕ) (x c : ℚ) (hx : x < c) (hf : 1 ≤ f) :
    denseSegX s f x c ≠ [] := by
  obtain ⟨f', rfl⟩ : ∃ f', f = f' + 1 := ⟨f - 1, by omega⟩
  rw [denseSegX, if_pos hx]
  exact List.cons_ne_nil _ _

/-- If each layer is reachable from the previous one by an exact number of
steps within the fuel, the ground-truth loop ends exactly at the last
layer. -/
lemma denseSimX_getLast (s : ℚ) (hs : 0 < s) (f : ℕ) :
    ∀ (layers : List ℚ) (lx c : ℚ),
      List.Chain (fun a b => ∃ m : ℕ, b = a + (m + 1 : ℕ) * s ∧ m + 1 ≤ f)
        lx layers →
      layers.getLast? = some c →
      (denseSimX s f layers lx).getLast? = some c := by
  intro layers
  induction layers with
  | nil => intro lx c _ hlast; simp at hlast
  | cons c0 rest ih =>
    intro lx c hch hlast
    rcases List.chain_cons.mp hch with ⟨⟨m, hstep, hm⟩, hch'⟩
    rw [denseSimX]
    cases rest with
    | nil =>
      have hc : c0 = c := by
        simpa using hlast
      subst hc
      rw [denseSimX, List.append_nil]
      exact denseSegX_getLast s hs m f lx c0 hstep hm
    | cons c1 rest' =>
      rcases List.chain_cons.mp hch' with ⟨⟨m1, hstep1, hm1⟩, _⟩
      have hne : denseSimX s f (c1 :: rest') c0 ≠ [] := by
        rw [denseSimX]
        intro hcontra
        rcases List.append_eq_nil.mp hcontra with ⟨h1, _⟩
        refine denseSegX_ne_nil s f c0 c1 ?_ (by omega) h1
        rw [hstep1]; push_cast; nlinarith [hs]
      rw [List.getLast?_append_of_ne_nil _ hne]
      refine ih c0 c hch' ?_
      rw [List.getLast?_cons_cons] at hlast
      exact hlast

lemma layers_chain : List.Chain (fun a b : ℚ => a < b) 0 layer_x_positions := by
  refine List.Chain.cons (by norm_num) ?_
  refine List.Chain.cons (by norm_num) ?_
  refine List.Chain.cons (by norm_num) ?_
  refine List.Chain.cons (by norm_num) ?_
  refine List.Chain.cons (by norm_num) ?_
  refine List.Chain.cons (by norm_num) ?_
  refine List.Chain.cons (by norm_num) ?_
  refine List.Chain.cons (by norm_num) ?_
  refine List.Chain.cons (by norm_num) ?_
  refine List.Chain.cons (by norm_num) ?_
  exact List.Chain.nil

lemma layers_reachable : List.Chain
    (fun a b : ℚ => ∃ m : ℕ, b = a + (m + 1 : ℕ) * (1/2) ∧ m + 1 ≤ denseFuel)
    0 layer_x_positions := by
  have hstep : ∀ a b : ℚ, b = a + 10 →
      ∃ m : ℕ, b = a + (m + 1 : ℕ) * (1/2) ∧ m + 1 ≤ denseFuel := by
    intro a b hb
    exact ⟨19, by rw [hb]; norm_num, by norm_num [denseFuel]⟩
  refine List.Chain.cons (hstep _ _ (by norm_num)) ?_
  refine List.Chain.cons (hstep _ _ (by norm_num)) ?_
  refine List.Chain.cons (hstep _ _ (by norm_num)) ?_
  refine List.Chain.cons (hstep _ _ (by norm_num)) ?_
  refine List.Chain.cons (hstep _ _ (by norm_num)) ?_
  refine List.Chain.cons (hstep _ _ (by norm_num)) ?_
  refine List.Chain.cons (hstep _ _ (by norm_num)) ?_
  refine List.Chain.cons (hstep _ _ (by norm_num)) ?_
  refine List.Chain.cons (hstep _ _ (by norm_num)) ?_
  refine List.Chain.cons (hstep _ _ (by norm_num)) ?_
  exact List.Chain.nil

/-- C9: every emitted sequence is ordered by strictly increasing `x`; in
particular the `true_x` samples are strictly increasing and the last one
lies at the last layer position `x = 100`. -/
theorem output_sequences_ordered (noise : ℕ → ℝ) :
    List.Chain' (fun a b => a < b) (runProg (1/2) noise).detector_layers ∧
    List.Chain' (fun a b => a < b)
      ((runProg (1/2) noise).hits.map Prod.fst) ∧
    List.Chain' (fun a b => a < b)
      ((runProg (1/2) noise).kfr.kf.map Prod.fst) ∧
    List.Chain' (fun a b => a < b) (runProg (1/2) noise).true_x ∧
    (runProg (1/2) noise).true_x.getLast? = some 100 := by
  have h0 : List.Chain' (fun a b : ℚ => a < b) (0 :: layer_x_positions) :=
    layers_chain
  have hlit : List.Chain' (fun a b : ℚ => a < b) layer_x_positions := h0.tail
  have hx : (runProg (1/2) noise).true_x
      = denseSimX (1/2) denseFuel layer_x_positions 0 := by
    show (denseSim (1/2) denseFuel layer_x_positions 0 true_state_initial).1 = _
    exact denseSim_xs (1/2) denseFuel layer_x_positions 0 true_state_initial
  refine ⟨hlit, ?_, ?_, ?_, ?_⟩
  · show List.Chain' _ layer_x_positions
    exact hlit
  · show List.Chain' _ layer_x_positions
    exact hlit
  · rw [hx]
    exact denseSimX_chain (1/2) (by norm_num) denseFuel layer_x_positions 0
      layers_chain
  · rw [hx]
    exact denseSimX_getLast (1/2) (by norm_num) denseFuel layer_x_positions 0
      100 layers_reachable rfl

theorem kfStep_singular_S_skips_update_witness :
    (kfStep ⟨0, 0⟩ ⟨-4, 0, 0, 0⟩ 5 5 7).S = 0 ∧
    (kfStep ⟨0, 0⟩ ⟨-4, 0, 0, 0⟩ 5 5 7).x_est = propagate ⟨0, 0⟩ 5 5 ∧
    (kfStep ⟨0, 0⟩ ⟨-4, 0, 0, 0⟩ 5 5 7).P_est
      = (kfStep ⟨0, 0⟩ ⟨-4, 0, 0, 0⟩ 5 5 7).P_pred := by
  have hS : (kfStep ⟨0, 0⟩ ⟨-4, 0, 0, 0⟩ 5 5 7).S = 0 := by
    show innovS (predictP (jacobian_F ⟨0, 0⟩ 5 5) ⟨-4, 0, 0, 0⟩) = 0
    rw [innovS_eq]
    simp only [predictP, jacobian_F, Q, SMatrix2x2.mul, SMatrix2x2.add,
      SMatrix2x2.transpose]
    norm_num
  obtain ⟨h1, h2⟩ := kfStep_singular_S_skips_update ⟨0, 0⟩ ⟨-4, 0, 0, 0⟩ 5 5 7 hS
  exact ⟨hS, h1, h2⟩
